import Mathlib

/-!
Verification development for the LMPResume checkpoint/resume engine.

Each definition below is a shallow embedding of a function of the
repository (files LMPResume/state.py, LMPResume/serial.py and
LMPResume/meta.py).  Wall-clock instants and durations are modelled as
rationals, Python integers as Lean integers, and side effects (logging,
checkpoint callbacks, exceptions) as explicit event lists or result
records.  The theorems at the end of the file settle the claims drawn
from the specification.
-/

set_option autoImplicit false

namespace LMPResume

/-! ### StateManager.time_check (state.py, lines 145-148)

Python source:
  def time_check(self) -> None:
      if time.time() - self.starttime > self.max_time - self.delta_safe:
          self.dump_callback()
          raise NoTimeLeft()

The model returns the list of observable events, in order: a dump event
for the checkpoint callback, and a raising event for the NoTimeLeft
exception.  The caller passes the current wall-clock reading. -/

inductive TCEvent where
  | dump
  | raiseNTL
  deriving DecidableEq, Repr

def time_check (now starttime max_time delta_safe : ℚ) : List TCEvent :=
  if now - starttime > max_time - delta_safe then
    [TCEvent.dump, TCEvent.raiseNTL]
  else
    []

/-! ### StateManager.find_restart (state.py, lines 150-184)

Each restart slot is modelled by an optional step counter: none means
the slot file does not exist on disk, some s means the probe through a
throwaway engine instance reads back step s.  LAMMPS step counters are
nonnegative, hence the natural-number payload.  Python source of the
comparison logic:
  step_a = ... if a_restart.exists() else -1   (likewise step_b)
  if step_a == -1 and step_b == -1: raise FirstRunFallbackTrigger()
  if step_a > step_b: return .../restart.a
  else: return .../restart.b -/

inductive Slot where
  | a
  | b
  deriving DecidableEq, Repr

inductive FindRes where
  | firstRunFallback
  | found (s : Slot)
  deriving DecidableEq, Repr

def stepVal (s : Option ℕ) : ℤ :=
  match s with
  | some n => (n : ℤ)
  | none => -1

def find_restart (stepA stepB : Option ℕ) : FindRes :=
  let step_a := stepVal stepA
  let step_b := stepVal stepB
  if step_a = -1 ∧ step_b = -1 then FindRes.firstRunFallback
  else if step_a > step_b then FindRes.found Slot.a
  else FindRes.found Slot.b

/-! ### StateManager exit handling (state.py, lines 107-116 and 123-125)

Python source:
  def exit_scope(self, exc_type, exc_value, exc_traceback) -> None:   -- dunder exit
      self.shutdown()
      if self.rank == 0 and exc_value is not None and exc_type != NoTimeLeft:
          self.logger.exception(exc_value)
      self.lmp.close()
      if exc_type != NoTimeLeft and self.rank == 0:
          self.norestart()

The exception argument is modelled by a three-valued kind: a normal
exit (no exception), a NoTimeLeft exit, and any other exception. -/

inductive ExitExc where
  | noExc
  | noTimeLeft
  | otherExc
  deriving DecidableEq, Repr

structure ExitResult where
  shutdowns : ℕ
  logged : Bool
  norestartCreated : Bool
  deriving DecidableEq, Repr

def stateExit (rank : ℕ) (exc : ExitExc) : ExitResult :=
  { shutdowns := 1
  , logged := decide (rank = 0) && decide (exc ≠ ExitExc.noExc)
      && decide (exc ≠ ExitExc.noTimeLeft)
  , norestartCreated := decide (exc ≠ ExitExc.noTimeLeft) && decide (rank = 0) }

/-! ### FastStage.go (state.py, lines 321-338)

The per-key progress record of a fast stage holds the two booleans
started and ended.  The model takes the record found in the manager
state (none when the key is absent), and reports the warning flag, the
record in place when the work function runs, the ordered event list and
the final record.  Python source:
  if self.stage_key in self.manager.state:
      started = self.manager.state[self.stage_key]["started"]
      ended = self.manager.state[self.stage_key]["ended"]
      if started and (not ended): warning(...)
  else:
      self.manager.state[self.stage_key] = {"started": True, "ended": False}
  self.manager.dump_callback()
  self.run()
  self.manager.state[self.stage_key]["ended"] = True
  self.manager.dump_callback() -/

inductive FastEv where
  | warn
  | dump
  | runWork
  deriving DecidableEq, Repr

structure FastRec where
  started : Bool
  ended : Bool
  deriving DecidableEq, Repr

structure FastGoResult where
  warned : Bool
  preRecord : FastRec
  events : List FastEv
  record : FastRec
  deriving DecidableEq, Repr

def fastGo (rec0 : Option FastRec) : FastGoResult :=
  match rec0 with
  | some r =>
    let w := r.started && !r.ended
    { warned := w
    , preRecord := r
    , events := (if w then [FastEv.warn] else [])
        ++ [FastEv.dump, FastEv.runWork, FastEv.dump]
    , record := { started := r.started, ended := true } }
  | none =>
    { warned := false
    , preRecord := { started := true, ended := false }
    , events := [FastEv.dump, FastEv.runWork, FastEv.dump]
    , record := { started := true, ended := true } }

/-! ### StateManager.run (state.py, lines 233-247)

Python source:
  def run(self, endflag: bool) -> None:
      if not endflag:
          last_ptr = self.ptr
          for i, stage in enumerate(self.stages):
              if i < last_ptr: continue
              stage.attach(self)
              with self.capture.file(): stage.go()
              self.ptr += 1
              self.time_check()
              self.dump_callback()
      with self.capture.file(): self.end()

Stage behaviour is abstracted by two oracles: goOk i tells whether the
go call of stage i returns without raising, and tc i tells whether the
time_check performed right after stage i raises NoTimeLeft.  The model
records the indices whose go was invoked, the cursor value after each
processed stage, the final cursor, whether the end hook ran, and how
the loop terminated. -/

inductive RunOutcome where
  | completed
  | stageRaised
  | noTimeLeft
  deriving DecidableEq, Repr

structure LoopRes where
  invoked : List ℕ
  ptr : ℤ
  ptrTrace : List ℤ
  outcome : RunOutcome
  deriving DecidableEq, Repr

def runLoop (goOk tc : ℕ → Bool) : List ℕ → ℤ → LoopRes
  | [], p => { invoked := [], ptr := p, ptrTrace := [], outcome := RunOutcome.completed }
  | i :: rest, p =>
    if goOk i then
      if tc i then
        { invoked := [i], ptr := p + 1, ptrTrace := [p + 1], outcome := RunOutcome.noTimeLeft }
      else
        let r := runLoop goOk tc rest (p + 1)
        { invoked := i :: r.invoked, ptr := r.ptr, ptrTrace := (p + 1) :: r.ptrTrace,
          outcome := r.outcome }
    else
      { invoked := [i], ptr := p, ptrTrace := [p], outcome := RunOutcome.stageRaised }

def stagesTodo (n : ℕ) (last_ptr : ℤ) : List ℕ :=
  (List.range n).filter (fun i => !(decide ((i : ℤ) < last_ptr)))

structure RunResult where
  invoked : List ℕ
  ptr : ℤ
  ptrTrace : List ℤ
  endCalled : Bool
  outcome : RunOutcome
  deriving DecidableEq, Repr

def stateRun (endflag : Bool) (ptr0 : ℤ) (n : ℕ) (goOk tc : ℕ → Bool) : RunResult :=
  if endflag then
    { invoked := [], ptr := ptr0, ptrTrace := [], endCalled := true,
      outcome := RunOutcome.completed }
  else
    let r := runLoop goOk tc (stagesTodo n ptr0) ptr0
    { invoked := r.invoked, ptr := r.ptr, ptrTrace := r.ptrTrace,
      endCalled := decide (r.outcome = RunOutcome.completed), outcome := r.outcome }

/-! ### LongStage (state.py, lines 264-318)

Python source of go (with get_time_tries inlined for the case where the
progress record is read back, lines 271-282):
  total_time, tries = self.get_time_tries()
  self.manager.dump_callback()
  self.prerun()
  self.stage_len += self.additional
  for it in range(tries, self.stage_len):
      start_time = time.time()
      self.run(it)
      end_time = time.time()
      total_time += end_time - start_time
      tries += 1
      self.manager.state[self.stage_key] = {"total_time": total_time, "tries": tries}
      self.manager.time_check()
  self.manager.dump_callback()
  self.postrun()
  self.manager.dump_callback()

The iteration durations are abstracted by an oracle dur, and the
time_check outcome after iteration it by an oracle cr (true means the
check raises NoTimeLeft).  Each executed iteration is recorded as a
step holding its index and the record written to the manager state
right after it.  The range call of Python is embedded as intRange. -/

structure LongRec where
  total_time : ℚ
  tries : ℤ
  deriving DecidableEq, Repr

structure IterStep where
  it : ℤ
  total_time : ℚ
  tries : ℤ
  deriving DecidableEq, Repr

def intRangeAux : ℕ → ℤ → List ℤ
  | 0, _ => []
  | n + 1, a => a :: intRangeAux n (a + 1)

def intRange (a b : ℤ) : List ℤ :=
  intRangeAux (b - a).toNat a

structure ItersRes where
  steps : List IterStep
  total_time : ℚ
  tries : ℤ
  aborted : Bool
  deriving DecidableEq, Repr

def runIters (cr : ℤ → Bool) (dur : ℤ → ℚ) : List ℤ → ℚ → ℤ → ItersRes
  | [], total, tries => { steps := [], total_time := total, tries := tries, aborted := false }
  | it :: rest, total, tries =>
    let total2 := total + dur it
    let tries2 := tries + 1
    if cr it then
      { steps := [{ it := it, total_time := total2, tries := tries2 }],
        total_time := total2, tries := tries2, aborted := true }
    else
      let r := runIters cr dur rest total2 tries2
      { steps := { it := it, total_time := total2, tries := tries2 } :: r.steps,
        total_time := r.total_time, tries := r.tries, aborted := r.aborted }

inductive GoOutcome where
  | ok
  | noTimeLeft
  deriving DecidableEq, Repr

structure GoResult where
  steps : List IterStep
  record : LongRec
  outcome : GoOutcome
  postrunCount : ℕ
  deriving DecidableEq, Repr

def longGo (stage_len additional : ℤ) (rec0 : Option LongRec)
    (cr : ℤ → Bool) (dur : ℤ → ℚ) : GoResult :=
  let total_time := match rec0 with | some r => r.total_time | none => 0
  let tries := match rec0 with | some r => r.tries | none => 0
  let r := runIters cr dur (intRange tries (stage_len + additional)) total_time tries
  { steps := r.steps
  , record := { total_time := r.total_time, tries := r.tries }
  , outcome := if r.aborted then GoOutcome.noTimeLeft else GoOutcome.ok
  , postrunCount := if r.aborted then 0 else 1 }

/-! ### Persistence codec (serial.py and meta.py)

JSON values as produced by the json module: null, booleans, integers,
strings, arrays and objects (objects as association lists with the
insertion order of the Python dict, whose keys are unique).

A registered type of the decoder registry (the types2dec list handed to
MakeDecoder) is modelled by its class name together with its class
annotations.  The embedding covers classes whose annotated fields all
have simple JSON-representable types (str, int, bool), which is the
default-constructible branch of the rejs reconstruction of meta.py; the
instance values of such fields are SVal.  Conversions that Python would
perform through str, int and bool are embedded in pyToStr, pyToInt and
pyToBool (the string representation that str gives to containers is not
modelled and yields none, a path no theorem relies on). -/

inductive JVal where
  | jnull
  | jbool (b : Bool)
  | jint (n : ℤ)
  | jstr (s : String)
  | jarr (xs : List JVal)
  | jobj (fields : List (String × JVal))

inductive SimpleTy where
  | tstr
  | tint
  | tbool
  deriving DecidableEq, Repr

inductive SVal where
  | sstr (s : String)
  | sint (n : ℤ)
  | sbool (b : Bool)
  deriving DecidableEq, Repr

def tyOf : SVal → SimpleTy
  | SVal.sstr _ => SimpleTy.tstr
  | SVal.sint _ => SimpleTy.tint
  | SVal.sbool _ => SimpleTy.tbool

def jsonOfSVal : SVal → JVal
  | SVal.sstr s => JVal.jstr s
  | SVal.sint n => JVal.jint n
  | SVal.sbool b => JVal.jbool b

structure RegType where
  name : String
  annots : List (String × SimpleTy)

structure Instance where
  typeName : String
  fields : List (String × SVal)
  deriving DecidableEq, Repr

/-- Dictionary lookup on a decoded JSON object (Python dict access). -/
def lookupField (obj : List (String × JVal)) (k : String) : Option JVal :=
  (obj.find? (fun kv => kv.1 == k)).map Prod.snd

/-- The startswith test of Python strings: the first argument begins
with the character sequence of the second. -/
def strSW (s pre : String) : Bool :=
  pre.data.isPrefixOf s.data

def pyToInt : JVal → Option ℤ
  | JVal.jint n => some n
  | JVal.jbool b => some (if b then 1 else 0)
  | JVal.jstr s => s.toInt?
  | _ => none

def pyToBool : JVal → Bool
  | JVal.jnull => false
  | JVal.jbool b => b
  | JVal.jint n => decide (n ≠ 0)
  | JVal.jstr s => decide (s ≠ "")
  | JVal.jarr xs => !xs.isEmpty
  | JVal.jobj fs => !fs.isEmpty

def pyToStr : JVal → Option String
  | JVal.jstr s => some s
  | JVal.jint n => some (toString n)
  | JVal.jbool b => some (if b then "True" else "False")
  | JVal.jnull => some "None"
  | _ => none

/-- check_2type_set of meta.py (lines 46-52) restricted to a simple
target type: reject None unless accept_none, then convert with the
target type constructor and store the field. -/
def check2type (ty : SimpleTy) (accept_none : Bool) (v : JVal) : Option SVal :=
  match v, accept_none with
  | JVal.jnull, false => none
  | _, _ =>
    match ty with
    | SimpleTy.tint => (pyToInt v).map SVal.sint
    | SimpleTy.tbool => some (SVal.sbool (pyToBool v))
    | SimpleTy.tstr => (pyToStr v).map SVal.sstr

/-- The annotation loop of rejs (meta.py, lines 67-87) over the class
annotations: names starting with a double underscore or with an
underscore followed by the class name are skipped, every other
annotated field is fetched from the decoded object and converted.  A
missing field or a failing conversion raises, modelled by none. -/
def rejsFields (tname : String) (obj : List (String × JVal)) :
    List (String × SimpleTy) → Option (List (String × SVal))
  | [] => some []
  | (k, ty) :: rest =>
    if strSW k "__" || strSW k ("_" ++ tname) then
      rejsFields tname obj rest
    else
      match lookupField obj k with
      | none => none
      | some v =>
        match check2type ty false v with
        | none => none
        | some sv => (rejsFields tname obj rest).map (fun fs => (k, sv) :: fs)

def rejs (T : RegType) (obj : List (String × JVal)) : Option Instance :=
  (rejsFields T.name obj T.annots).map (fun fs => { typeName := T.name, fields := fs })

/-- The comparison performed by the decoder loop of serial.py, line 27:
the value stored under the key dunder-type equals the class name of the
candidate registered type (a string compared with a string). -/
def matchName (tv : JVal) (T : RegType) : Bool :=
  match tv with
  | JVal.jstr s => s == T.name
  | _ => false

inductive HookResult where
  | decoded (inst : Instance)
  | plain (obj : List (String × JVal))
  | rejsError

/-- object_hook of the decoder made by MakeDecoder (serial.py, lines
23-30): when the object carries a dunder-type key, the registry is
scanned in order and the first type whose name equals the stored value
reconstructs the instance; with no match, or without the key, the
object itself is returned as a plain mapping. -/
def object_hook (types2dec : List RegType) (obj : List (String × JVal)) : HookResult :=
  match lookupField obj "__type" with
  | some tv =>
    match types2dec.find? (fun T => matchName tv T) with
    | some T =>
      match rejs T obj with
      | some inst => HookResult.decoded inst
      | none => HookResult.rejsError
    | none => HookResult.plain obj
  | none => HookResult.plain obj

/-- The json encoding of a SerialProtocol value (meta.py, lines 54-65):
a dunder-type discriminator holding the class name, followed by every
instance field whose name neither starts with a double underscore nor
with an underscore followed by the class name. -/
def jsonEncode (inst : Instance) : List (String × JVal) :=
  ("__type", JVal.jstr inst.typeName) ::
    (inst.fields.filter (fun kv =>
        !(strSW kv.1 "__" || strSW kv.1 ("_" ++ inst.typeName)))).map
      (fun kv => (kv.1, jsonOfSVal kv.2))

/-! ### Helper lemmas about the stage loop -/

theorem runLoop_invoked_take (goOk tc : ℕ → Bool) (l : List ℕ) :
    ∀ p : ℤ, (runLoop goOk tc l p).invoked
      = l.take (runLoop goOk tc l p).invoked.length := by
  induction l with
  | nil => intro p; simp [runLoop]
  | cons i rest ih =>
    intro p
    by_cases hg : goOk i
    · by_cases ht : tc i
      · simp [runLoop, hg, ht]
      · simp only [runLoop, hg, ht, if_true, if_false, Bool.false_eq_true,
          List.length_cons, List.take_succ_cons, List.cons.injEq, true_and]
        exact ih (p + 1)
    · simp [runLoop, hg]

theorem runLoop_ptr_eq (goOk tc : ℕ → Bool) (l : List ℕ) :
    ∀ p : ℤ, (runLoop goOk tc l p).ptr
      = p + ((runLoop goOk tc l p).invoked.countP goOk : ℤ) := by
  induction l with
  | nil => intro p; simp [runLoop]
  | cons i rest ih =>
    intro p
    by_cases hg : goOk i
    · by_cases ht : tc i
      · simp [runLoop, hg, ht, List.countP_cons]
      · simp only [runLoop, hg, ht, if_true, if_false, Bool.false_eq_true,
          List.countP_cons]
        rw [ih (p + 1)]
        push_cast [hg]
        ring
    · simp [runLoop, hg, List.countP_cons]

theorem runLoop_completed (goOk tc : ℕ → Bool) (l : List ℕ) :
    ∀ p : ℤ, (runLoop goOk tc l p).outcome = RunOutcome.completed →
      (runLoop goOk tc l p).invoked = l := by
  induction l with
  | nil => intro p _; simp [runLoop]
  | cons i rest ih =>
    intro p h
    by_cases hg : goOk i
    · by_cases ht : tc i
      · simp [runLoop, hg, ht] at h
      · simp only [runLoop, hg, ht, if_true, if_false, Bool.false_eq_true] at h ⊢
        simp only [List.cons.injEq, true_and]
        exact ih (p + 1) h
    · simp [runLoop, hg] at h


theorem runLoop_trace_get (goOk tc : ℕ → Bool) (l : List ℕ) :
    ∀ (p : ℤ) (j : ℕ), j < (runLoop goOk tc l p).ptrTrace.length →
      (runLoop goOk tc l p).ptrTrace[j]?
        = some (p + (((runLoop goOk tc l p).invoked.take (j + 1)).countP goOk : ℤ)) := by
  induction l with
  | nil => intro p j h; simp [runLoop] at h
  | cons i rest ih =>
    intro p j h
    by_cases hg : goOk i
    · by_cases ht : tc i
      · simp only [runLoop, hg, ht, if_true] at h ⊢
        cases j with
        | zero => simp [List.countP_cons, hg]
        | succ j' => simp at h
      · simp only [runLoop, hg, ht, if_true, if_false, Bool.false_eq_true] at h ⊢
        cases j with
        | zero => simp [List.countP_cons, hg]
        | succ j' =>
          simp only [List.length_cons, Nat.add_lt_add_iff_right] at h
          simp only [List.getElem?_cons_succ, List.take_succ_cons, List.countP_cons, hg]
          rw [ih (p + 1) j' h]
          simp only [Option.some.injEq, if_true]
          push_cast
          ring
    · simp only [runLoop, hg, Bool.false_eq_true, if_false] at h ⊢
      cases j with
      | zero => simp [List.countP_cons, hg]
      | succ j' => simp at h

/-! ### Helper lemmas about integer ranges and the long-stage loop -/

theorem intRangeAux_length (n : ℕ) : ∀ a : ℤ, (intRangeAux n a).length = n := by
  induction n with
  | zero => intro a; rfl
  | succ m ih => intro a; simp [intRangeAux, ih]

theorem intRangeAux_mem (n : ℕ) : ∀ (a x : ℤ), x ∈ intRangeAux n a → a ≤ x := by
  induction n with
  | zero => intro a x hx; simp [intRangeAux] at hx
  | succ m ih =>
    intro a x hx
    simp only [intRangeAux, List.mem_cons] at hx
    rcases hx with h | h
    · omega
    · have := ih (a + 1) x h
      omega

theorem intRangeAux_drop (n : ℕ) : ∀ (j : ℕ) (a : ℤ),
    (intRangeAux n a).drop j = intRangeAux (n - j) (a + j) := by
  induction n with
  | zero => intro j a; simp [intRangeAux]
  | succ m ih =>
    intro j a
    match j with
    | 0 => simp [intRangeAux]
    | j' + 1 =>
      simp only [intRangeAux, List.drop_succ_cons]
      rw [ih j' (a + 1)]
      congr 1
      · omega
      · push_cast
        ring

theorem intRange_drop (a b : ℤ) (j : ℕ) :
    (intRange a b).drop j = intRange (a + (j : ℤ)) b := by
  unfold intRange
  rw [intRangeAux_drop]
  congr 1
  omega

theorem runIters_its_take (cr : ℤ → Bool) (dur : ℤ → ℚ) (l : List ℤ) :
    ∀ (tt : ℚ) (tr : ℤ), (runIters cr dur l tt tr).steps.map IterStep.it
      = l.take (runIters cr dur l tt tr).steps.length := by
  induction l with
  | nil => intro tt tr; simp [runIters]
  | cons it rest ih =>
    intro tt tr
    by_cases hc : cr it
    · simp [runIters, hc]
    · simp only [runIters, hc, if_false, Bool.false_eq_true, List.map_cons,
        List.length_cons, List.take_succ_cons, List.cons.injEq, true_and]
      exact ih (tt + dur it) (tr + 1)

theorem runIters_final_tries (cr : ℤ → Bool) (dur : ℤ → ℚ) (l : List ℤ) :
    ∀ (tt : ℚ) (tr : ℤ), (runIters cr dur l tt tr).tries
      = tr + ((runIters cr dur l tt tr).steps.length : ℤ) := by
  induction l with
  | nil => intro tt tr; simp [runIters]
  | cons it rest ih =>
    intro tt tr
    by_cases hc : cr it
    · simp [runIters, hc]
    · simp only [runIters, hc, if_false, Bool.false_eq_true, List.length_cons]
      rw [ih (tt + dur it) (tr + 1)]
      push_cast
      ring

theorem runIters_tries_map (cr : ℤ → Bool) (dur : ℤ → ℚ) (l : List ℤ) :
    ∀ (tt : ℚ) (tr : ℤ), (runIters cr dur l tt tr).steps.map IterStep.tries
      = (List.range (runIters cr dur l tt tr).steps.length).map
          (fun (j : ℕ) => tr + 1 + (j : ℤ)) := by
  induction l with
  | nil => intro tt tr; simp [runIters]
  | cons it rest ih =>
    intro tt tr
    by_cases hc : cr it
    · simp [runIters, hc, List.range_succ]
    · simp only [runIters, hc, if_false, Bool.false_eq_true, List.map_cons,
        List.length_cons, List.range_succ_eq_map, List.map_map, List.cons.injEq]
      refine ⟨by push_cast; ring, ?_⟩
      rw [ih (tt + dur it) (tr + 1)]
      congr 1
      funext j
      simp only [Function.comp_apply]
      push_cast
      ring

theorem runIters_complete (cr : ℤ → Bool) (dur : ℤ → ℚ) (l : List ℤ) :
    ∀ (tt : ℚ) (tr : ℤ), (runIters cr dur l tt tr).aborted = false →
      (runIters cr dur l tt tr).steps.map IterStep.it = l := by
  induction l with
  | nil => intro tt tr _; simp [runIters]
  | cons it rest ih =>
    intro tt tr h
    by_cases hc : cr it
    · simp [runIters, hc] at h
    · simp only [runIters, hc, if_false, Bool.false_eq_true] at h ⊢
      simp only [List.map_cons, List.cons.injEq, true_and]
      exact ih (tt + dur it) (tr + 1) h

theorem runIters_no_abort (dur : ℤ → ℚ) (l : List ℤ) :
    ∀ (tt : ℚ) (tr : ℤ), (runIters (fun _ => false) dur l tt tr).aborted = false := by
  induction l with
  | nil => intro tt tr; rfl
  | cons it rest ih =>
    intro tt tr
    simp only [runIters, Bool.false_eq_true, if_false]
    exact ih (tt + dur it) (tr + 1)

/-! ### Helper lemmas about the persistence codec -/

theorem check2type_roundtrip (v : SVal) :
    check2type (tyOf v) false (jsonOfSVal v) = some v := by
  cases v <;> rfl

theorem strSW_ne_dunder_type {s : String} (h : strSW s "__" = false) :
    s ≠ "__type" := by
  intro heq
  rw [heq] at h
  have hT : strSW "__type" "__" = true := by decide
  rw [hT] at h
  cases h

theorem lookup_map_encode (fs : List (String × SVal)) (k : String) (sv : SVal)
    (hnd : (fs.map Prod.fst).Nodup) (hmem : (k, sv) ∈ fs) :
    lookupField (fs.map (fun kv => (kv.1, jsonOfSVal kv.2))) k
      = some (jsonOfSVal sv) := by
  induction fs with
  | nil => cases hmem
  | cons hd tl ih =>
    obtain ⟨k0, v0⟩ := hd
    simp only [List.map_cons, List.nodup_cons, List.mem_map] at hnd
    by_cases hk : k0 = k
    · subst hk
      have hv : v0 = sv := by
        rcases List.mem_cons.mp hmem with h | h
        · exact (Prod.mk.injEq _ _ _ _ ▸ h.symm).2.symm ▸ rfl
        · exact absurd ⟨(k0, sv), h, rfl⟩ hnd.1
      subst hv
      simp [lookupField, List.find?_cons]
    · have hmem2 : (k, sv) ∈ tl := by
        rcases List.mem_cons.mp hmem with h | h
        · cases h; exact absurd rfl hk
        · exact h
      have := ih hnd.2 hmem2
      simp only [lookupField, List.map_cons, List.find?_cons] at this ⊢
      have hne : (k0 == k) = false := by simp [hk]
      rw [hne]
      exact this

theorem rejsFields_encode (tname : String) (obj : List (String × JVal)) :
    ∀ fs : List (String × SVal),
      (∀ kv ∈ fs, strSW kv.1 "__" = false ∧ strSW kv.1 ("_" ++ tname) = false) →
      (∀ kv ∈ fs, lookupField obj kv.1 = some (jsonOfSVal kv.2)) →
      rejsFields tname obj (fs.map (fun kv => (kv.1, tyOf kv.2))) = some fs := by
  intro fs
  induction fs with
  | nil => intro _ _; rfl
  | cons hd tl ih =>
    intro hskip hlook
    obtain ⟨k, sv⟩ := hd
    have hs := hskip (k, sv) (List.mem_cons_self _ _)
    have hl := hlook (k, sv) (List.mem_cons_self _ _)
    have hi := ih (fun kv hkv => hskip kv (List.mem_cons_of_mem _ hkv))
        (fun kv hkv => hlook kv (List.mem_cons_of_mem _ hkv))
    simp only [List.map_cons, rejsFields, hs.1, hs.2, Bool.or_self, Bool.false_eq_true,
      if_false, hl, check2type_roundtrip, hi]
    rfl

/-! ### Claim theorems -/

/-- C2: restart selection of StateManager.find_restart, where an absent
slot counts as step -1: with both slots absent the FirstRunFallback
condition is raised; when slot A has the strictly greater step counter
slot A is returned; otherwise (slot B strictly greater, or a tie) slot
B is returned; in particular A at step 100 versus B at step 50 yields
A, and only B present yields B. -/
theorem find_restart_selection (stepA stepB : Option ℕ) :
    (find_restart stepA stepB = FindRes.firstRunFallback ↔ stepA = none ∧ stepB = none)
    ∧ (stepVal stepA > stepVal stepB → find_restart stepA stepB = FindRes.found Slot.a)
    ∧ (¬(stepA = none ∧ stepB = none) → stepVal stepA ≤ stepVal stepB →
        find_restart stepA stepB = FindRes.found Slot.b)
    ∧ find_restart (some 100) (some 50) = FindRes.found Slot.a
    ∧ find_restart none (some 50) = FindRes.found Slot.b := by
  refine ⟨?_, ?_, ?_, by decide, by decide⟩
  · cases stepA <;> cases stepB <;>
      simp only [find_restart, stepVal] <;> split_ifs <;> simp_all
  · intro h
    cases stepA <;> cases stepB <;>
      simp only [find_restart, stepVal] at h ⊢ <;> split_ifs <;> simp_all
  · intro hne h
    cases stepA <;> cases stepB <;>
      simp only [find_restart, stepVal] at h hne ⊢ <;> split_ifs <;> simp_all <;> omega

/-- C2 witness: concrete selection runs obtained from the theorem. -/
theorem find_restart_selection_witness :
    (stepVal (some 100) > stepVal (some 50)
      ∧ find_restart (some 100) (some 50) = FindRes.found Slot.a)
    ∧ (¬((none : Option ℕ) = none ∧ (some 50 : Option ℕ) = none)
      ∧ stepVal none ≤ stepVal (some 50)
      ∧ find_restart none (some 50) = FindRes.found Slot.b) :=
  ⟨⟨by decide, (find_restart_selection (some 100) (some 50)).2.1 (by decide)⟩,
   ⟨by decide, by decide,
    (find_restart_selection none (some 50)).2.2.1 (by decide) (by decide)⟩⟩

/-- C3: time_check raises NoTimeLeft exactly when the elapsed wall
clock since attach strictly exceeds max_time - delta_safe; when it
raises, the checkpoint callback runs first (the dump event precedes the
raising event), and when it does not raise nothing at all happens. -/
theorem time_check_spec (now starttime max_time delta_safe : ℚ) :
    (time_check now starttime max_time delta_safe = [TCEvent.dump, TCEvent.raiseNTL]
      ↔ now - starttime > max_time - delta_safe)
    ∧ (time_check now starttime max_time delta_safe = []
      ↔ ¬(now - starttime > max_time - delta_safe)) := by
  by_cases h : now - starttime > max_time - delta_safe <;> simp [time_check, h]

/-- C3 witness: a raising and a silent run of time_check obtained from
the theorem. -/
theorem time_check_spec_witness :
    time_check 10 0 5 1 = [TCEvent.dump, TCEvent.raiseNTL]
    ∧ time_check 1 0 500 300 = [] :=
  ⟨(time_check_spec 10 0 5 1).1.mpr (by norm_num),
   (time_check_spec 1 0 500 300).2.mpr (by norm_num)⟩

/-- C10 counterexample: the claim says every call of time_check raises
whenever max_time is at most delta_safe, but at max_time = delta_safe =
300 with zero elapsed time the strict comparison fails and time_check
returns silently without raising. -/
theorem time_check_budget_cex :
    (300 : ℚ) ≤ 300 ∧ (0 : ℚ) - 0 ≥ 0 ∧ time_check 0 0 300 300 = [] := by
  refine ⟨le_refl _, by norm_num, ?_⟩
  norm_num [time_check]

/-- C10 (amended): whenever max_time is strictly below delta_safe — in
particular under the constructor defaults max_time = 0 with delta_safe
= 300, and under the CLI value max_time = -1 meant as unlimited — every
call of time_check raises NoTimeLeft after invoking the checkpoint
callback, since the elapsed time is non-negative while max_time -
delta_safe is negative. -/
theorem time_check_unlimited_raises (now starttime max_time delta_safe : ℚ)
    (h1 : starttime ≤ now) (h2 : max_time < delta_safe) :
    time_check now starttime max_time delta_safe
      = [TCEvent.dump, TCEvent.raiseNTL] := by
  have h : now - starttime > max_time - delta_safe := by linarith
  simp [time_check, h]

/-- C10 witness: the CLI unlimited value max_time = -1 with the default
delta_safe = 300 and zero elapsed time. -/
theorem time_check_unlimited_raises_witness :
    (0 : ℚ) ≤ 0 ∧ (-1 : ℚ) < 300
      ∧ time_check 0 0 (-1) 300 = [TCEvent.dump, TCEvent.raiseNTL] :=
  ⟨le_refl _, by norm_num, time_check_unlimited_raises 0 0 (-1) 300 (le_refl _) (by norm_num)⟩

/-- C5: on leaving the run scope, shutdown runs exactly once; a
NoTimeLeft exit logs no error and creates no NORESTART marker; any
other exception is logged exactly on rank 0 and the NORESTART marker is
created exactly by rank 0. -/
theorem stateExit_spec (rank : ℕ) (exc : ExitExc) :
    (stateExit rank exc).shutdowns = 1
    ∧ (exc = ExitExc.noTimeLeft →
        (stateExit rank exc).logged = false
        ∧ (stateExit rank exc).norestartCreated = false)
    ∧ (exc = ExitExc.otherExc →
        ((stateExit rank exc).logged = true ↔ rank = 0)
        ∧ ((stateExit rank exc).norestartCreated = true ↔ rank = 0)) := by
  cases exc <;> by_cases h : rank = 0 <;> simp [stateExit, h]

/-- C5 witness: rank 0 with an ordinary exception logs and creates the
marker; a non-zero rank under NoTimeLeft creates nothing. -/
theorem stateExit_spec_witness :
    (stateExit 0 ExitExc.otherExc).logged = true
    ∧ (stateExit 0 ExitExc.otherExc).norestartCreated = true
    ∧ (stateExit 1 ExitExc.noTimeLeft).norestartCreated = false :=
  ⟨((stateExit_spec 0 ExitExc.otherExc).2.2 rfl).1.mpr rfl,
   ((stateExit_spec 0 ExitExc.otherExc).2.2 rfl).2.mpr rfl,
   ((stateExit_spec 1 ExitExc.noTimeLeft).2.1 rfl).2⟩

/-- C7: FastStage.go warns exactly when a record exists with started
true and ended false; with no record it creates the record with started
true and ended false; in every case the work function runs exactly
once, a checkpoint happens right before and right after it, and the
final record shows ended true. -/
theorem fastGo_spec (rec0 : Option FastRec) :
    (fastGo rec0).events.count FastEv.runWork = 1
    ∧ ((fastGo rec0).warned = true
      ↔ ∃ r : FastRec, rec0 = some r ∧ r.started = true ∧ r.ended = false)
    ∧ (rec0 = none → (fastGo rec0).preRecord = { started := true, ended := false })
    ∧ (fastGo rec0).events
      = (if (fastGo rec0).warned then [FastEv.warn] else [])
        ++ [FastEv.dump, FastEv.runWork, FastEv.dump]
    ∧ (fastGo rec0).record.ended = true := by
  cases rec0 with
  | none => refine ⟨by decide, by simp [fastGo], fun _ => rfl, rfl, rfl⟩
  | some r =>
    obtain ⟨s, e⟩ := r
    cases s <;> cases e <;>
      exact ⟨by decide, by simp [fastGo], by intro h; simp at h, rfl, rfl⟩

/-- C7 witness: the interrupted record started true, ended false. -/
theorem fastGo_spec_witness :
    (fastGo (some { started := true, ended := false })).warned = true
    ∧ (fastGo (some { started := true, ended := false })).record.ended = true :=
  ⟨(fastGo_spec (some { started := true, ended := false })).2.1.mpr
      ⟨{ started := true, ended := false }, rfl, rfl, rfl⟩,
   (fastGo_spec (some { started := true, ended := false })).2.2.2.2⟩

/-- C6 counterexample: decoding an object whose discriminator matches
no registered name does not raise; the object hook returns it as a
plain mapping (with the empty registry, the name Foo is unknown). -/
theorem object_hook_unknown_cex :
    object_hook [] [("__type", JVal.jstr "Foo")]
      = HookResult.plain [("__type", JVal.jstr "Foo")] := rfl

/-- C6 (amended): decoding a state document object whose discriminator
value matches no name of the caller-supplied registry returns the
object unchanged as a plain mapping; no exception is raised and no
UnknownType condition exists in the code. -/
theorem object_hook_unknown_plain (reg : List RegType) (obj : List (String × JVal))
    (tv : JVal) (hty : lookupField obj "__type" = some tv)
    (hnone : reg.find? (fun T => matchName tv T) = none) :
    object_hook reg obj = HookResult.plain obj := by
  simp [object_hook, hty, hnone]

/-- C6 witness: a nonempty registry that does not know the name Bar. -/
theorem object_hook_unknown_plain_witness :
    lookupField [("__type", JVal.jstr "Bar"), ("x", JVal.jint 1)] "__type"
      = some (JVal.jstr "Bar")
    ∧ ([⟨"P", []⟩] : List RegType).find? (fun T => matchName (JVal.jstr "Bar") T) = none
    ∧ object_hook [⟨"P", []⟩] [("__type", JVal.jstr "Bar"), ("x", JVal.jint 1)]
      = HookResult.plain [("__type", JVal.jstr "Bar"), ("x", JVal.jint 1)] :=
  ⟨rfl, rfl, object_hook_unknown_plain _ _ _ rfl rfl⟩

/-- C4: the stage loop of StateManager.run with endflag false: stages
below the starting cursor are skipped without invoking go; the invoked
stages form an in-order prefix of the remaining stage indices; the
final cursor equals the starting cursor plus the number of invoked
stages whose go returned without raising (so after a fresh start it
equals the number of completed stages); the cursor never decreases; on
a completed loop every remaining stage was invoked; and the cursor
recorded after the j-th processed stage already equals the starting
cursor plus the successes so far. -/
theorem stateRun_cursor (ptr0 : ℤ) (n : ℕ) (goOk tc : ℕ → Bool) :
    (stateRun false ptr0 n goOk tc).invoked
      = (stagesTodo n ptr0).take (stateRun false ptr0 n goOk tc).invoked.length
    ∧ (stateRun false ptr0 n goOk tc).invoked.all
        (fun i => !(decide ((i : ℤ) < ptr0))) = true
    ∧ (stateRun false ptr0 n goOk tc).ptr
      = ptr0 + (((stateRun false ptr0 n goOk tc).invoked.countP goOk : ℕ) : ℤ)
    ∧ ptr0 ≤ (stateRun false ptr0 n goOk tc).ptr
    ∧ ((stateRun false ptr0 n goOk tc).outcome = RunOutcome.completed →
        (stateRun false ptr0 n goOk tc).invoked = stagesTodo n ptr0)
    ∧ ∀ j : ℕ, j < (stateRun false ptr0 n goOk tc).ptrTrace.length →
        (stateRun false ptr0 n goOk tc).ptrTrace[j]?
          = some (ptr0
              + (((stateRun false ptr0 n goOk tc).invoked.take (j + 1)).countP goOk : ℤ)) := by
  simp only [stateRun, Bool.false_eq_true, if_false]
  refine ⟨runLoop_invoked_take goOk tc _ ptr0, ?_, runLoop_ptr_eq goOk tc _ ptr0, ?_,
    runLoop_completed goOk tc _ ptr0, runLoop_trace_get goOk tc _ ptr0⟩
  · apply List.all_eq_true.mpr
    intro i hi
    rw [runLoop_invoked_take goOk tc _ ptr0] at hi
    have hmem : i ∈ stagesTodo n ptr0 := List.take_subset _ _ hi
    simp only [stagesTodo, List.mem_filter] at hmem
    exact hmem.2
  · rw [runLoop_ptr_eq goOk tc _ ptr0]
    exact le_add_of_nonneg_right (Int.natCast_nonneg _)

/-- C4 witness: four stages, starting cursor one, the go of stage three
raises; obtained by instantiating the theorem. -/
theorem stateRun_cursor_witness :
    (stateRun false 1 4 (fun i => decide (i ≠ 3)) (fun _ => false)).invoked
      = (stagesTodo 4 1).take
          (stateRun false 1 4 (fun i => decide (i ≠ 3)) (fun _ => false)).invoked.length
    ∧ (stateRun false 1 4 (fun i => decide (i ≠ 3)) (fun _ => false)).invoked.all
        (fun i => !(decide ((i : ℤ) < 1))) = true
    ∧ (stateRun false 1 4 (fun i => decide (i ≠ 3)) (fun _ => false)).ptr
      = 1 + (((stateRun false 1 4 (fun i => decide (i ≠ 3)) (fun _ => false)).invoked.countP
          (fun i => decide (i ≠ 3)) : ℕ) : ℤ)
    ∧ (1 : ℤ) ≤ (stateRun false 1 4 (fun i => decide (i ≠ 3)) (fun _ => false)).ptr :=
  ⟨(stateRun_cursor 1 4 (fun i => decide (i ≠ 3)) (fun _ => false)).1,
   (stateRun_cursor 1 4 (fun i => decide (i ≠ 3)) (fun _ => false)).2.1,
   (stateRun_cursor 1 4 (fun i => decide (i ≠ 3)) (fun _ => false)).2.2.1,
   (stateRun_cursor 1 4 (fun i => decide (i ≠ 3)) (fun _ => false)).2.2.2.1⟩

/-- C1: for a LongStage whose progress record holds completedIterations
k and whose effective target is stage_len + additional, go executes the
iteration indices in order starting at k (an in-order prefix of the
integer range from k to the target), never an index below k; the tries
counter written after the j-th executed iteration is k + 1 + j, and the
final record holds k plus the number of executed iterations; without an
abort the whole range k..target-1 runs; and after a NoTimeLeft abort a
re-run from the persisted record executes exactly the remaining
indices, the two runs together covering the range exactly once. -/
theorem longStage_resumable (stage_len additional k : ℤ) (tt : ℚ)
    (cr : ℤ → Bool) (dur dur2 : ℤ → ℚ) :
    (longGo stage_len additional (some { total_time := tt, tries := k }) cr dur).steps.map
        IterStep.it
      = (intRange k (stage_len + additional)).take
          (longGo stage_len additional (some { total_time := tt, tries := k }) cr
            dur).steps.length
    ∧ (longGo stage_len additional (some { total_time := tt, tries := k }) cr dur).steps.map
        IterStep.tries
      = (List.range
          (longGo stage_len additional (some { total_time := tt, tries := k }) cr
            dur).steps.length).map (fun (j : ℕ) => k + 1 + (j : ℤ))
    ∧ (longGo stage_len additional (some { total_time := tt, tries := k }) cr dur).record.tries
      = k + ((longGo stage_len additional (some { total_time := tt, tries := k }) cr
          dur).steps.length : ℤ)
    ∧ ((longGo stage_len additional (some { total_time := tt, tries := k }) cr dur).steps.map
        IterStep.it).all (fun i => decide (k ≤ i)) = true
    ∧ ((longGo stage_len additional (some { total_time := tt, tries := k }) cr dur).outcome
          = GoOutcome.ok →
        (longGo stage_len additional (some { total_time := tt, tries := k }) cr dur).steps.map
            IterStep.it
          = intRange k (stage_len + additional))
    ∧ ((longGo stage_len additional (some { total_time := tt, tries := k }) cr dur).outcome
          = GoOutcome.noTimeLeft →
        (longGo stage_len additional
            (some (longGo stage_len additional (some { total_time := tt, tries := k }) cr
              dur).record) (fun _ => false) dur2).steps.map IterStep.it
          = intRange
              (longGo stage_len additional (some { total_time := tt, tries := k }) cr
                dur).record.tries (stage_len + additional)
        ∧ (longGo stage_len additional (some { total_time := tt, tries := k }) cr dur).steps.map
              IterStep.it
            ++ (longGo stage_len additional
                (some (longGo stage_len additional (some { total_time := tt, tries := k }) cr
                  dur).record) (fun _ => false) dur2).steps.map IterStep.it
          = intRange k (stage_len + additional)) := by
  simp only [longGo]
  refine ⟨runIters_its_take cr dur _ tt k, runIters_tries_map cr dur _ tt k,
    runIters_final_tries cr dur _ tt k, ?_, ?_, ?_⟩
  · apply List.all_eq_true.mpr
    intro i hi
    rw [runIters_its_take cr dur _ tt k] at hi
    have hmem : i ∈ intRange k (stage_len + additional) := List.take_subset _ _ hi
    exact decide_eq_true (intRangeAux_mem _ k i hmem)
  · intro h
    cases habort : (runIters cr dur (intRange k (stage_len + additional)) tt k).aborted with
    | true => simp [habort] at h
    | false => exact runIters_complete cr dur _ tt k habort
  · intro _
    have hres := runIters_no_abort dur2
      (intRange (runIters cr dur (intRange k (stage_len + additional)) tt k).tries
        (stage_len + additional))
      (runIters cr dur (intRange k (stage_len + additional)) tt k).total_time
      (runIters cr dur (intRange k (stage_len + additional)) tt k).tries
    have h2 := runIters_complete (fun _ => false) dur2
      (intRange (runIters cr dur (intRange k (stage_len + additional)) tt k).tries
        (stage_len + additional))
      (runIters cr dur (intRange k (stage_len + additional)) tt k).total_time
      (runIters cr dur (intRange k (stage_len + additional)) tt k).tries hres
    refine ⟨h2, ?_⟩
    rw [h2, runIters_its_take cr dur _ tt k, runIters_final_tries cr dur _ tt k,
      ← intRange_drop k (stage_len + additional)
        (runIters cr dur (intRange k (stage_len + additional)) tt k).steps.length]
    exact List.take_append_drop _ _

/-- C1 witness: target five, interruption after the iteration of index
one, then a resumed run; obtained from the theorem, the abort
hypothesis discharged by evaluation. -/
theorem longStage_resumable_witness :
    (longGo 5 0 (some { total_time := 0, tries := 0 }) (fun it => decide (it = 1))
        (fun _ => 1)).outcome = GoOutcome.noTimeLeft
    ∧ (longGo 5 0 (some { total_time := 0, tries := 0 }) (fun it => decide (it = 1))
          (fun _ => 1)).steps.map IterStep.it
        ++ (longGo 5 0
            (some (longGo 5 0 (some { total_time := 0, tries := 0 })
              (fun it => decide (it = 1)) (fun _ => 1)).record) (fun _ => false)
            (fun _ => 1)).steps.map IterStep.it
      = intRange 0 5 :=
  ⟨by decide,
   ((longStage_resumable 5 0 0 0 (fun it => decide (it = 1)) (fun _ => 1)
      (fun _ => 1)).2.2.2.2.2 (by decide)).2⟩

/-- C9: a LongStage whose effective target does not exceed the recorded
completedIterations runs its loop zero times: no iteration executes,
the record is unchanged, the run completes without abort and postrun
still fires exactly once. -/
theorem longGo_shrunken_target (stage_len additional : ℤ) (r : LongRec)
    (cr : ℤ → Bool) (dur : ℤ → ℚ) (h : stage_len + additional ≤ r.tries) :
    longGo stage_len additional (some r) cr dur
      = { steps := [], record := r, outcome := GoOutcome.ok, postrunCount := 1 } := by
  obtain ⟨tt, tr⟩ := r
  have h0 : (stage_len + additional - tr).toNat = 0 := by
    simp only at h
    omega
  simp [longGo, intRange, h0, intRangeAux, runIters]

/-- C9 witness: configured length three against five recorded
iterations. -/
theorem longGo_shrunken_target_witness :
    (3 : ℤ) + 0 ≤ (5 : ℤ)
    ∧ longGo 3 0 (some { total_time := 10, tries := 5 }) (fun _ => false) (fun _ => 1)
      = { steps := [], record := { total_time := 10, tries := 5 },
          outcome := GoOutcome.ok, postrunCount := 1 } :=
  ⟨by decide,
   longGo_shrunken_target 3 0 { total_time := 10, tries := 5 } (fun _ => false)
     (fun _ => 1) (by decide)⟩

/-- C8: round-trip of the persistence codec on a value of a registered
type: encoding an instance with the universal JSON encoder and decoding
the resulting object with the registry decoder reconstructs an
instance equal in every observable field, the discriminator resolving
to the same registered type (the first registry entry carrying the
instance's class name).  The hypotheses state that the registry scan
for the class name yields T, that the class annotations are exactly the
instance fields with their simple types, that no field name is private
(a dunder or class-mangled name), and that field names are unique as in
a Python dict. -/
theorem codec_roundtrip (reg : List RegType) (T : RegType) (inst : Instance)
    (hfind : reg.find? (fun T2 => matchName (JVal.jstr inst.typeName) T2) = some T)
    (hann : T.annots = inst.fields.map (fun kv => (kv.1, tyOf kv.2)))
    (hpriv : ∀ kv ∈ inst.fields,
      strSW kv.1 "__" = false ∧ strSW kv.1 ("_" ++ inst.typeName) = false)
    (hnd : (inst.fields.map Prod.fst).Nodup) :
    object_hook reg (jsonEncode inst) = HookResult.decoded inst
    ∧ T.name = inst.typeName := by
  have hname : T.name = inst.typeName := by
    have h := List.find?_some hfind
    simp only [matchName, beq_iff_eq] at h
    exact h.symm
  have hfilter : inst.fields.filter (fun kv =>
      !(strSW kv.1 "__" || strSW kv.1 ("_" ++ inst.typeName))) = inst.fields := by
    apply List.filter_eq_self.mpr
    intro kv hkv
    have := hpriv kv hkv
    simp [this.1, this.2]
  have hobj : jsonEncode inst
      = ("__type", JVal.jstr inst.typeName)
        :: inst.fields.map (fun kv => (kv.1, jsonOfSVal kv.2)) := by
    simp only [jsonEncode, hfilter]
  have hty : lookupField (jsonEncode inst) "__type" = some (JVal.jstr inst.typeName) := by
    rw [hobj]
    simp [lookupField, List.find?_cons]
  have hlook : ∀ kv ∈ inst.fields,
      lookupField (jsonEncode inst) kv.1 = some (jsonOfSVal kv.2) := by
    intro kv hkv
    have hne : kv.1 ≠ "__type" := strSW_ne_dunder_type (hpriv kv hkv).1
    have hk : ("__type" == kv.1) = false := by
      simp only [beq_eq_false_iff_ne]
      exact fun hx => hne hx.symm
    have hstep : lookupField (jsonEncode inst) kv.1
        = lookupField (inst.fields.map (fun kv2 => (kv2.1, jsonOfSVal kv2.2))) kv.1 := by
      rw [hobj]
      simp [lookupField, List.find?_cons, hk]
    rw [hstep]
    exact lookup_map_encode inst.fields kv.1 kv.2 hnd hkv
  have hrejs : rejs T (jsonEncode inst) = some inst := by
    simp only [rejs, hann, hname]
    rw [rejsFields_encode inst.typeName (jsonEncode inst) inst.fields hpriv hlook]
    rfl
  refine ⟨?_, hname⟩
  simp only [object_hook, hty, hfind, hrejs]

/-- C8 witness: a registered type P with an integer field and a string
field; the hypotheses evaluate on the concrete registry and instance
and the theorem yields the round-trip. -/
theorem codec_roundtrip_witness :
    ([⟨"P", [("x", SimpleTy.tint), ("s", SimpleTy.tstr)]⟩] : List RegType).find?
        (fun T2 => matchName (JVal.jstr "P") T2)
      = some ⟨"P", [("x", SimpleTy.tint), ("s", SimpleTy.tstr)]⟩
    ∧ object_hook [⟨"P", [("x", SimpleTy.tint), ("s", SimpleTy.tstr)]⟩]
        (jsonEncode ⟨"P", [("x", SVal.sint 3), ("s", SVal.sstr "hi")]⟩)
      = HookResult.decoded ⟨"P", [("x", SVal.sint 3), ("s", SVal.sstr "hi")]⟩ :=
  ⟨rfl,
   (codec_roundtrip [⟨"P", [("x", SimpleTy.tint), ("s", SimpleTy.tstr)]⟩]
      ⟨"P", [("x", SimpleTy.tint), ("s", SimpleTy.tstr)]⟩
      ⟨"P", [("x", SVal.sint 3), ("s", SVal.sstr "hi")]⟩
      rfl rfl (by decide) (by decide)).1⟩

end LMPResume
